import Mathlib

/-!
A shallow embedding of the expense-tracker web application (`app.py`) and
proofs about its aggregation and reporting pipeline.

Modelling conventions:
* `amount` (a Python/SQL float holding a decimal currency value) is modelled
  as an exact rational `ℚ`.
* A Python `dict` is modelled as an association list `List (String × ℚ)` in
  insertion order, exactly as CPython 3.7+ dicts preserve insertion order.
* The record store (the `expense` SQLite table) is modelled as a
  `List Expense` in insertion (rowid) order; `Expense.query.all()` returns
  this list.
* Python string comparison (used by `sorted(...)` on month keys) is modelled
  by `listCmp` on the strings' character lists, comparing code points.
-/

/-- Three-way lexicographic comparison of character lists, by Unicode code
point, exactly as Python compares strings. -/
def listCmp : List Char → List Char → Ordering
  | [], [] => .eq
  | [], _ :: _ => .lt
  | _ :: _, [] => .gt
  | a :: as, b :: bs =>
    if a < b then .lt else if b < a then .gt else listCmp as bs

/-- Python `s <= t` on strings. -/
def strLe (s t : String) : Bool :=
  match listCmp s.data t.data with
  | .gt => false
  | _ => true

/-- The decimal digit character for `n < 10`. -/
def digitChar (n : ℕ) : Char :=
  Char.ofNat (48 + n)

/-- `c` is one of the characters `0`..`9`. -/
def isDigitC (c : Char) : Bool :=
  48 ≤ c.toNat && c.toNat ≤ 57

/-- Numeric value of a most-significant-digit-first digit string. -/
def digitsVal : List Char → ℕ
  | [] => 0
  | c :: cs => (c.toNat - 48) * 10 ^ cs.length + digitsVal cs

/-- Fuel-driven decimal digit expansion, most significant digit first. -/
def natDigitsF : ℕ → ℕ → List Char
  | 0, _ => []
  | fuel + 1, n =>
    if n < 10 then [digitChar n]
    else natDigitsF fuel (n / 10) ++ [digitChar (n % 10)]

/-- Decimal digit characters of `n`, most significant first. -/
def natDigits (n : ℕ) : List Char :=
  natDigitsF (n + 1) n

/-- Zero-pad the decimal digits of `n` on the left to width `w`
(the semantics of `strftime` field formatting such as `%Y`, `%m`, `%d`). -/
def padNat (w n : ℕ) : List Char :=
  List.replicate (w - (natDigits n).length) '0' ++ natDigits n

/-- A calendar date at day granularity, as stored in the `date` column. -/
structure Date where
  year : ℕ
  month : ℕ
  day : ℕ
deriving DecidableEq

/-- One row of the `expense` table (`class Expense(db.Model)`). -/
structure Expense where
  id : ℕ
  amount : ℚ
  category : String
  date : Date
  description : String
deriving DecidableEq

/-- `expense.date.strftime('%Y-%m')` — the month key used by the dashboard. -/
def formatMonthKey (d : Date) : String :=
  ⟨padNat 4 d.year ++ '-' :: padNat 2 d.month⟩

/-- `expense.date.strftime('%Y-%m-%d')` — the date cell of a CSV row. -/
def formatDateYMD (d : Date) : String :=
  ⟨padNat 4 d.year ++ '-' :: (padNat 2 d.month ++ '-' :: padNat 2 d.day)⟩

-- Basic sanity checks of the formatting model.
example : formatMonthKey ⟨2024, 3, 1⟩ = "2024-03" := by rfl
example : formatDateYMD ⟨2024, 1, 15⟩ = "2024-01-15" := by rfl
example : strLe "2024-01" "2024-02" = true := by rfl
example : strLe "2024-02" "2024-01-15" = false := by rfl

/-- All characters are decimal digits. -/
def allDigits (cs : List Char) : Bool :=
  cs.all isDigitC

/-- Model of Python `float(s)` on the decimal forms the app receives from its
amount form field: optional sign, then digits with at most one decimal point
and at least one digit. Returns `none` exactly when `float(...)` raises
`ValueError`. -/
def parseFloat (s : String) : Option ℚ :=
  let signed : ℚ × List Char :=
    match s.data with
    | '+' :: r => (1, r)
    | '-' :: r => (-1, r)
    | r => (1, r)
  match (signed.2).splitOn '.' with
  | [intp] =>
      if !intp.isEmpty && allDigits intp then
        some (signed.1 * (digitsVal intp : ℚ))
      else none
  | [intp, fracp] =>
      if (!intp.isEmpty || !fracp.isEmpty) && allDigits intp && allDigits fracp then
        some (signed.1 * ((digitsVal intp : ℚ) + (digitsVal fracp : ℚ) / 10 ^ fracp.length))
      else none
  | _ => none

/-- `y` is a Gregorian leap year (the rule `datetime` uses). -/
def isLeapYear (y : ℕ) : Bool :=
  (y % 4 = 0 && y % 100 ≠ 0) || y % 400 = 0

/-- Number of days in month `m` of year `y`. -/
def daysInMonth (y m : ℕ) : ℕ :=
  if m = 2 then (if isLeapYear y then 29 else 28)
  else if m = 4 || m = 6 || m = 9 || m = 11 then 30
  else 31

/-- Model of `datetime.strptime(s, '%Y-%m-%d')`: four year digits, dash,
one or two month digits, dash, one or two day digits, whole string consumed,
and the resulting numbers must form a real calendar date (`datetime`
validates ranges). Returns `none` exactly when `strptime` raises
`ValueError`. -/
def parseDateYMD (s : String) : Option Date :=
  match s.data.splitOn '-' with
  | [y, m, d] =>
      if y.length = 4 && allDigits y &&
          (m.length = 1 || m.length = 2) && allDigits m &&
          (d.length = 1 || d.length = 2) && allDigits d then
        let yv := digitsVal y
        let mv := digitsVal m
        let dv := digitsVal d
        if 1 ≤ yv && 1 ≤ mv && mv ≤ 12 && 1 ≤ dv && dv ≤ daysInMonth yv mv then
          some ⟨yv, mv, dv⟩
        else none
      else none
  | _ => none

example : (parseFloat "100.25").isSome = true := by rfl
example : (parseFloat "100").isSome = true := by rfl
example : parseFloat "abc" = none := by rfl
example : parseDateYMD "2024-01-15" = some ⟨2024, 1, 15⟩ := by rfl
example : parseDateYMD "2024-02-30" = none := by rfl
example : parseDateYMD "15/01/2024" = none := by rfl

/-- CPython dict accumulation step for
`if k in m: m[k] += v else: m[k] = v` on an insertion-ordered dict. -/
def dictAdd : List (String × ℚ) → String → ℚ → List (String × ℚ)
  | [], k, v => [(k, v)]
  | (k', v') :: rest, k, v =>
    if k' = k then (k', v' + v) :: rest else (k', v') :: dictAdd rest k v

/-- Dict lookup `m[k]` (`none` models `KeyError`). -/
def alookup (k : String) : List (String × ℚ) → Option ℚ
  | [] => none
  | (k', v) :: rest => if k = k' then some v else alookup k rest

/-- One iteration of the dashboard's aggregation loop, grouping by `f`. -/
def aggStep (f : Expense → String) (m : List (String × ℚ)) (e : Expense) :
    List (String × ℚ) :=
  dictAdd m (f e) e.amount

/-- The dashboard loop `for expense in expenses: ...` specialised to one of
its two accumulating dicts. -/
def aggregateBy (f : Expense → String) (es : List Expense) : List (String × ℚ) :=
  es.foldl (aggStep f) []

/-- The `categories` dict built by `dashboard` (lines 81-86). -/
def aggregateByCategory (es : List Expense) : List (String × ℚ) :=
  aggregateBy (fun e => e.category) es

/-- `expense.date.strftime('%Y-%m')` applied to a record. -/
def monthKeyOf (e : Expense) : String :=
  formatMonthKey e.date

/-- The `monthly_data` dict built by `dashboard` (lines 88-93). -/
def aggregateByMonth (es : List Expense) : List (String × ℚ) :=
  aggregateBy monthKeyOf es

/-- Insert `k` into an ascending list, keeping it ascending. -/
def insertKey (k : String) : List String → List String
  | [] => [k]
  | x :: xs => if strLe k x then k :: x :: xs else x :: insertKey k xs

/-- Sort a list of strings ascending by Python string comparison
(a model of `sorted(...)`). -/
def sortKeys : List String → List String
  | [] => []
  | x :: xs => insertKey x (sortKeys xs)

/-- `sorted_months = sorted(monthly_data.keys())` (line 96). -/
def sortedMonths (m : List (String × ℚ)) : List String :=
  sortKeys (m.map Prod.fst)

/-- `monthly_values = [monthly_data[month] for month in sorted_months]`
(line 97). -/
def monthlyValues (m : List (String × ℚ)) : List ℚ :=
  (sortedMonths m).map (fun k => (alookup k m).getD 0)

/-- `generate_pie_chart(categories)` (lines 149-165): `None` on an empty
dict, otherwise a chart rendered from the dict's labels and values
(the image is modelled by the data handed to the plotting library). -/
def generate_pie_chart (categories : List (String × ℚ)) :
    Option (List String × List ℚ) :=
  if categories.isEmpty then none
  else some (categories.map Prod.fst, categories.map Prod.snd)

/-- `generate_line_chart(months, values)` (lines 167-187): `None` on an
empty month list, otherwise a chart of the given x/y data. -/
def generate_line_chart (months : List String) (values : List ℚ) :
    Option (List String × List ℚ) :=
  if months.isEmpty then none
  else some (months, values)

/-- The string the CSV writer produces for the float `expense.amount`
(claims never inspect this cell's text). -/
def formatAmount (q : ℚ) : String :=
  toString q

/-- The header row written by `export_csv` (line 128). -/
def csvHeader : List String :=
  ["Date", "Category", "Description", "Amount (₹)"]

/-- One data row written by `export_csv` (lines 130-136). -/
def csvRow (e : Expense) : List String :=
  [formatDateYMD e.date, e.category, e.description, formatAmount e.amount]

/-- `export_csv` (lines 121-146): rows of the produced CSV file, in order.
`Expense.query.all()` applies no ordering, so the records come in the
store's own (insertion) order. -/
def export_csv (es : List Expense) : List (List String) :=
  csvHeader :: es.map csvRow

/-- `delete_expense(id)` (lines 113-119): `get_or_404` finds the record with
the given primary key and deletes it; the flag reports whether it was found
(`false` models the 404 response, which leaves the store untouched). -/
def delete_expense : List Expense → ℕ → List Expense × Bool
  | [], _ => ([], false)
  | e :: rest, i =>
    if e.id = i then (rest, true)
    else
      let r := delete_expense rest i
      (e :: r.1, r.2)

/-- The POST form fields of the add operation. -/
structure AddForm where
  amount : String
  category : String
  date : String
  description : String

/-- `add_expense` POST branch (lines 57-68): parse amount with `float`,
parse date with `strptime`; an unparseable field raises `ValueError`
(modelled as `.error`) before any record is constructed; otherwise the new
record is appended to the store with the next fresh id. -/
def add_expense (st : List Expense) (nextId : ℕ) (form : AddForm) :
    Except String (List Expense × ℕ) :=
  match parseFloat form.amount with
  | none => .error "ValueError: could not convert string to float"
  | some amt =>
    match parseDateYMD form.date with
    | none => .error "ValueError: time data does not match format"
    | some d =>
      .ok (st ++ [⟨nextId, amt, form.category, d, form.description⟩], nextId + 1)

/-- `db.session.query(db.func.sum(Expense.amount)).scalar()` — SQL `SUM`
returns `NULL` (here `none`) on an empty table. -/
def sqlSumAmounts (es : List Expense) : Option ℚ :=
  if es.isEmpty then none else some ((es.map Expense.amount).sum)

/-- `total_expenses = ... .scalar() or 0` (line 44): Python `or` replaces a
falsy scalar (`None`, or the float `0.0`) by `0`. -/
def total_expenses (es : List Expense) : ℚ :=
  match sqlSumAmounts es with
  | none => 0
  | some v => if v = 0 then 0 else v

/-! ### Sum-of-values lemmas (conservation of total) -/

/-- `sum(m.values())` for a dict modelled as an association list. -/
def sumVals (m : List (String × ℚ)) : ℚ :=
  (m.map Prod.snd).sum

theorem sumVals_dictAdd (m : List (String × ℚ)) (k : String) (v : ℚ) :
    sumVals (dictAdd m k v) = sumVals m + v := by
  induction m with
  | nil => simp [sumVals, dictAdd]
  | cons p rest ih =>
    obtain ⟨k', v'⟩ := p
    by_cases h : k' = k
    · simp [sumVals, dictAdd, h]
      ring
    · simp only [dictAdd, if_neg h, sumVals, List.map_cons, List.sum_cons] at *
      rw [ih]
      ring

theorem sumVals_foldl (f : Expense → String) (es : List Expense) :
    ∀ m : List (String × ℚ),
      sumVals (es.foldl (aggStep f) m) = sumVals m + (es.map Expense.amount).sum := by
  induction es with
  | nil => intro m; simp
  | cons e rest ih =>
    intro m
    simp only [List.foldl_cons, List.map_cons, List.sum_cons]
    rw [ih, aggStep, sumVals_dictAdd]
    ring

theorem sumVals_aggregateBy (f : Expense → String) (es : List Expense) :
    sumVals (aggregateBy f es) = (es.map Expense.amount).sum := by
  rw [aggregateBy, sumVals_foldl]
  simp [sumVals]

/-! ### Sample records (the spec's own worked example, §8) -/

/-- 100 on Food, dated 2024-01-15. -/
def sampleFood : Expense :=
  ⟨1, 100, "Food", ⟨2024, 1, 15⟩, "groceries"⟩

/-- 50 on Food, dated 2024-02-01. -/
def sampleFood2 : Expense :=
  ⟨2, 50, "Food", ⟨2024, 2, 1⟩, "snacks"⟩

/-- 30 on Transport, dated 2024-01-20. -/
def sampleTransport : Expense :=
  ⟨3, 30, "Transport", ⟨2024, 1, 20⟩, "bus"⟩

/-- C1: for every non-empty collection of expense records, the sum of the
values of the per-category aggregate and the sum of the values of the
per-month aggregate both equal the sum of the `amount` fields of all
records. -/
theorem C1_conservation_of_total (es : List Expense) (_h : es ≠ []) :
    sumVals (aggregateByCategory es) = (es.map Expense.amount).sum ∧
    sumVals (aggregateByMonth es) = (es.map Expense.amount).sum :=
  ⟨sumVals_aggregateBy _ es, sumVals_aggregateBy _ es⟩

/-- C1 witness: conservation of total at the one-record store. -/
theorem C1_witness :
    sumVals (aggregateByCategory [sampleFood]) = ([sampleFood].map Expense.amount).sum ∧
    sumVals (aggregateByMonth [sampleFood]) = ([sampleFood].map Expense.amount).sum :=
  C1_conservation_of_total [sampleFood] (List.cons_ne_nil _ _)

/-- C6: the empty record collection yields empty category and month
aggregates, and both chart generators return the explicit absent signal
(`none`, modelling Python `None`) on empty input instead of failing. -/
theorem C6_empty_aggregates_and_charts :
    aggregateByCategory [] = [] ∧ aggregateByMonth [] = [] ∧
    generate_pie_chart [] = none ∧
    ∀ vs : List ℚ, generate_line_chart [] vs = none :=
  ⟨rfl, rfl, rfl, fun _ => rfl⟩

/-- C9: exporting an empty store yields exactly the header row
`Date,Category,Description,Amount (₹)` and no data rows. -/
theorem C9_export_empty_is_header_only :
    export_csv [] = [["Date", "Category", "Description", "Amount (₹)"]] :=
  rfl

/-- C10: the summary view's total equals the sum of all stored amounts, and
is the number `0` (the SQL `NULL` coalesced by `or 0`) on an empty store. -/
theorem C10_total_expenses_eq_sum (es : List Expense) :
    total_expenses es = (es.map Expense.amount).sum ∧ total_expenses [] = 0 := by
  constructor
  · cases es with
    | nil => simp [total_expenses, sqlSumAmounts]
    | cons e rest =>
      simp only [total_expenses, sqlSumAmounts, List.isEmpty_cons, Bool.false_eq_true,
        if_false]
      split
      · rename_i hv
        exact hv.symm
      · rfl
  · rfl

/-! ### Lookup characterisation of the aggregation loop -/

/-- Total amount of the records of `es` that `f` sends to key `k`. -/
def sumAmountsFor (f : Expense → String) (k : String) (es : List Expense) : ℚ :=
  ((es.filter (fun e => decide (f e = k))).map Expense.amount).sum

theorem alookup_dictAdd (m : List (String × ℚ)) (k q : String) (v : ℚ) :
    alookup q (dictAdd m k v) =
      if q = k then some ((alookup q m).getD 0 + v) else alookup q m := by
  induction m with
  | nil =>
    by_cases h : q = k
    · subst h; simp [dictAdd, alookup]
    · simp [dictAdd, alookup, h]
  | cons p rest ih =>
    obtain ⟨a, b⟩ := p
    by_cases hak : a = k
    · subst hak
      by_cases hq : q = a
      · subst hq; simp [dictAdd, alookup]
      · simp [dictAdd, alookup, hq]
    · by_cases hq : q = a
      · subst hq
        simp [dictAdd, alookup, hak, Ne.symm hak]
      · simp [dictAdd, alookup, hak, hq, ih]

theorem alookup_foldl_getD (f : Expense → String) (k : String) (es : List Expense) :
    ∀ m : List (String × ℚ),
      (alookup k (es.foldl (aggStep f) m)).getD 0 =
        (alookup k m).getD 0 + sumAmountsFor f k es := by
  induction es with
  | nil => intro m; simp [sumAmountsFor]
  | cons e rest ih =>
    intro m
    simp only [List.foldl_cons]
    rw [ih, aggStep, alookup_dictAdd]
    by_cases h : f e = k
    · rw [if_pos h.symm]
      simp only [Option.getD_some]
      have hs : sumAmountsFor f k (e :: rest) = e.amount + sumAmountsFor f k rest := by
        simp [sumAmountsFor, List.filter_cons, h]
      rw [hs]
      ring
    · have hk : ¬ k = f e := fun hh => h hh.symm
      rw [if_neg hk]
      have hs : sumAmountsFor f k (e :: rest) = sumAmountsFor f k rest := by
        simp [sumAmountsFor, List.filter_cons, h]
      rw [hs]

theorem alookup_foldl_none (f : Expense → String) (k : String) (es : List Expense) :
    ∀ m : List (String × ℚ),
      (alookup k (es.foldl (aggStep f) m) = none ↔
        alookup k m = none ∧ ∀ e ∈ es, f e ≠ k) := by
  induction es with
  | nil => intro m; simp
  | cons e rest ih =>
    intro m
    simp only [List.foldl_cons]
    rw [ih]
    constructor
    · rintro ⟨hd, hrest⟩
      rw [aggStep, alookup_dictAdd] at hd
      by_cases h : k = f e
      · simp [h] at hd
      · simp only [if_neg h] at hd
        refine ⟨hd, fun e' he' => ?_⟩
        rw [List.mem_cons] at he'
        rcases he' with he1 | he2
        · subst he1; exact fun hh => h hh.symm
        · exact hrest e' he2
    · rintro ⟨hd, hall⟩
      have hne : ¬ k = f e := fun hh => hall e (List.mem_cons_self e rest) hh.symm
      refine ⟨?_, fun e' he' => hall e' (List.mem_cons_of_mem e he')⟩
      rw [aggStep, alookup_dictAdd, if_neg hne]
      exact hd

theorem alookup_aggregateBy_getD (f : Expense → String) (k : String) (es : List Expense) :
    (alookup k (aggregateBy f es)).getD 0 = sumAmountsFor f k es := by
  rw [aggregateBy, alookup_foldl_getD]
  simp [alookup]

theorem alookup_aggregateBy_none (f : Expense → String) (k : String) (es : List Expense) :
    alookup k (aggregateBy f es) = none ↔ ∀ e ∈ es, f e ≠ k := by
  rw [aggregateBy, alookup_foldl_none]
  simp [alookup]

theorem sumAmountsFor_perm (f : Expense → String) (k : String)
    {es es' : List Expense} (hp : es.Perm es') :
    sumAmountsFor f k es = sumAmountsFor f k es' :=
  ((hp.filter _).map _).sum_eq

/-- C7: the per-month aggregate is invariant under permutation of the input
records — every month key is mapped to the same summed amount (and the same
keys are present) whichever order the records arrive in. -/
theorem C7_aggregateByMonth_perm_invariant (es es' : List Expense)
    (hp : es.Perm es') (k : String) :
    alookup k (aggregateByMonth es) = alookup k (aggregateByMonth es') := by
  have hnone : alookup k (aggregateByMonth es) = none ↔
      alookup k (aggregateByMonth es') = none := by
    rw [aggregateByMonth, aggregateByMonth, alookup_aggregateBy_none,
      alookup_aggregateBy_none]
    constructor
    · intro hall e he; exact hall e (hp.mem_iff.mpr he)
    · intro hall e he; exact hall e (hp.mem_iff.mp he)
  have hval : (alookup k (aggregateByMonth es)).getD 0 =
      (alookup k (aggregateByMonth es')).getD 0 := by
    rw [aggregateByMonth, aggregateByMonth, alookup_aggregateBy_getD,
      alookup_aggregateBy_getD]
    exact sumAmountsFor_perm _ _ hp
  cases h1 : alookup k (aggregateByMonth es) with
  | none => exact (hnone.mp h1).symm
  | some w =>
    cases h2 : alookup k (aggregateByMonth es') with
    | none =>
      exact absurd (hnone.mpr h2) (by simp [h1])
    | some w' =>
      rw [h1, h2] at hval
      simpa using hval

/-- C7 witness: swapping two sample records leaves the January 2024 entry of
the monthly aggregate unchanged. -/
theorem C7_witness :
    alookup "2024-01" (aggregateByMonth [sampleFood, sampleTransport]) =
      alookup "2024-01" (aggregateByMonth [sampleTransport, sampleFood]) :=
  C7_aggregateByMonth_perm_invariant _ _ (List.Perm.swap _ _ _) "2024-01"

/-! ### Key order of the aggregation dicts -/

/-- The elements of a list that are not in `seen`, first occurrences only,
in the order each first occurs. -/
def firstOccKeys (seen : List String) : List String → List String
  | [] => []
  | x :: xs =>
    if x ∈ seen then firstOccKeys seen xs
    else x :: firstOccKeys (x :: seen) xs

theorem keys_dictAdd (m : List (String × ℚ)) (k : String) (v : ℚ) :
    (dictAdd m k v).map Prod.fst =
      if k ∈ m.map Prod.fst then m.map Prod.fst else m.map Prod.fst ++ [k] := by
  induction m with
  | nil => simp [dictAdd]
  | cons p rest ih =>
    obtain ⟨a, b⟩ := p
    by_cases hak : a = k
    · subst hak
      simp [dictAdd]
    · have hk : ¬ k = a := fun hh => hak hh.symm
      simp only [dictAdd, if_neg hak, List.map_cons, List.mem_cons, hk, false_or]
      rw [ih]
      by_cases hmem : k ∈ rest.map Prod.fst
      · simp [hmem]
      · simp [hmem]

theorem firstOccKeys_congr {s1 s2 : List String} (l : List String)
    (h : ∀ a, a ∈ s1 ↔ a ∈ s2) : firstOccKeys s1 l = firstOccKeys s2 l := by
  induction l generalizing s1 s2 with
  | nil => rfl
  | cons x xs ih =>
    by_cases hx : x ∈ s1
    · rw [firstOccKeys, firstOccKeys, if_pos hx, if_pos ((h x).mp hx)]
      exact ih h
    · rw [firstOccKeys, firstOccKeys, if_neg hx, if_neg (fun hh => hx ((h x).mpr hh))]
      refine congrArg (x :: ·) (ih ?_)
      intro a
      simp [h a]

theorem keys_foldl (f : Expense → String) (es : List Expense) :
    ∀ m : List (String × ℚ),
      (es.foldl (aggStep f) m).map Prod.fst =
        m.map Prod.fst ++ firstOccKeys (m.map Prod.fst) (es.map f) := by
  induction es with
  | nil => intro m; simp [firstOccKeys]
  | cons e rest ih =>
    intro m
    simp only [List.foldl_cons, List.map_cons]
    rw [ih, aggStep, keys_dictAdd]
    by_cases hmem : f e ∈ m.map Prod.fst
    · rw [if_pos hmem, firstOccKeys, if_pos hmem]
    · rw [if_neg hmem, firstOccKeys, if_neg hmem]
      rw [@firstOccKeys_congr (m.map Prod.fst ++ [f e]) (f e :: m.map Prod.fst)
        (rest.map f) (fun a => by simp [or_comm])]
      simp

/-- C8: the per-category aggregate maps every category occurring in the
input to the total amount of the records bearing it, and its keys are the
distinct input categories in order of first occurrence. -/
theorem C8_aggregateByCategory_spec (es : List Expense) :
    (aggregateByCategory es).map Prod.fst =
      firstOccKeys [] (es.map (fun e => e.category)) ∧
    ∀ c ∈ es.map (fun e => e.category),
      alookup c (aggregateByCategory es) =
        some (sumAmountsFor (fun e => e.category) c es) := by
  constructor
  · rw [aggregateByCategory, aggregateBy, keys_foldl]
    simp
  · intro c hc
    rw [List.mem_map] at hc
    obtain ⟨e, he, hec⟩ := hc
    have hnone : ¬ alookup c (aggregateByCategory es) = none := by
      rw [aggregateByCategory, alookup_aggregateBy_none]
      intro hall
      exact hall e he hec
    cases h1 : alookup c (aggregateByCategory es) with
    | none => exact absurd h1 hnone
    | some w =>
      have := alookup_aggregateBy_getD (fun e => e.category) c es
      rw [aggregateByCategory] at h1
      rw [h1] at this
      simpa using this

/-- C8 witness: on the spec's worked example the category keys come out as
Food then Transport, and Food maps to the 100 + 50 total. -/
theorem C8_witness :
    (aggregateByCategory [sampleFood, sampleFood2, sampleTransport]).map Prod.fst =
      firstOccKeys []
        ([sampleFood, sampleFood2, sampleTransport].map (fun e => e.category)) ∧
    alookup "Food"
        (aggregateByCategory [sampleFood, sampleFood2, sampleTransport]) =
      some (sumAmountsFor (fun e => e.category) "Food"
        [sampleFood, sampleFood2, sampleTransport]) := by
  refine ⟨(C8_aggregateByCategory_spec _).1, ?_⟩
  exact (C8_aggregateByCategory_spec _).2 "Food" (by decide)

/-! ### Add and delete operations -/

theorem delete_not_found (st : List Expense) (i : ℕ)
    (h : i ∉ st.map Expense.id) : delete_expense st i = (st, false) := by
  induction st with
  | nil => rfl
  | cons e rest ih =>
    simp only [List.map_cons, List.mem_cons] at h
    push_neg at h
    have hne : ¬ e.id = i := fun hh => h.1 hh.symm
    simp only [delete_expense, if_neg hne]
    rw [ih h.2]

theorem delete_removes_id (st : List Expense) (i : ℕ)
    (hnd : (st.map Expense.id).Nodup) :
    i ∉ (delete_expense st i).1.map Expense.id := by
  induction st with
  | nil => simp [delete_expense]
  | cons e rest ih =>
    simp only [List.map_cons, List.nodup_cons] at hnd
    by_cases h : e.id = i
    · simp only [delete_expense, if_pos h]
      subst h
      exact hnd.1
    · simp only [delete_expense, if_neg h, List.map_cons, List.mem_cons]
      push_neg
      exact ⟨fun hh => h hh.symm, ih hnd.2⟩

/-- C4: under the store's primary-key uniqueness invariant, deleting an id
leaves no record with that id behind, and deleting an id that is not in the
store reports not-found (`false`) and returns the store unchanged. -/
theorem C4_delete_spec (st : List Expense) (i : ℕ)
    (hnd : (st.map Expense.id).Nodup) :
    i ∉ (delete_expense st i).1.map Expense.id ∧
    (i ∉ st.map Expense.id → delete_expense st i = (st, false)) :=
  ⟨delete_removes_id st i hnd, delete_not_found st i⟩

/-- C4 witness: deleting the absent id 99 from a two-record store. -/
theorem C4_witness :
    99 ∉ (delete_expense [sampleFood, sampleFood2] 99).1.map Expense.id ∧
    (99 ∉ [sampleFood, sampleFood2].map Expense.id →
      delete_expense [sampleFood, sampleFood2] 99 = ([sampleFood, sampleFood2], false)) :=
  C4_delete_spec [sampleFood, sampleFood2] 99 (by decide)

/-- C2: if the amount field does not parse as a decimal or the date field
does not parse as `YYYY-MM-DD`, the add operation fails with a `ValueError`
and no expense record is created (no new store is ever produced). -/
theorem C2_add_invalid_input_rejected (st : List Expense) (n : ℕ) (form : AddForm)
    (h : parseFloat form.amount = none ∨ parseDateYMD form.date = none) :
    (∃ msg, add_expense st n form = .error msg) ∧
    ∀ (st' : List Expense) (n' : ℕ), add_expense st n form ≠ .ok (st', n') := by
  have herr : ∃ msg, add_expense st n form = .error msg := by
    rcases h with h | h
    · exact ⟨"ValueError: could not convert string to float", by simp [add_expense, h]⟩
    · cases hf : parseFloat form.amount with
      | none =>
        exact ⟨"ValueError: could not convert string to float", by simp [add_expense, hf]⟩
      | some amt =>
        exact ⟨"ValueError: time data does not match format", by simp [add_expense, hf, h]⟩
  obtain ⟨msg, hmsg⟩ := herr
  exact ⟨⟨msg, hmsg⟩, fun st' n' hok => by rw [hmsg] at hok; exact Except.noConfusion hok⟩

/-- C2 witness: the add request with unparseable amount `abc` is rejected. -/
theorem C2_witness :
    (∃ msg, add_expense [] 1 ⟨"abc", "Food", "2024-01-15", "x"⟩ = .error msg) ∧
    ∀ (st' : List Expense) (n' : ℕ),
      add_expense [] 1 ⟨"abc", "Food", "2024-01-15", "x"⟩ ≠ .ok (st', n') :=
  C2_add_invalid_input_rejected [] 1 _ (Or.inl rfl)

/-! ### CSV export: row order and date format -/

/-- The date cell (first column) of a CSV row. -/
def rowDate (r : List String) : String :=
  r.headD ""

/-- The rows' date cells are in non-increasing (newest-first) order under
Python string comparison, which on `YYYY-MM-DD` strings is chronological
order. -/
def rowsNewestFirst : List (List String) → Bool
  | r1 :: r2 :: rest => strLe (rowDate r2) (rowDate r1) && rowsNewestFirst (r2 :: rest)
  | _ => true

/-- C3 counterexample: a store holding an older record inserted before a
newer one is exported in insertion order, so the data rows of the export
are not ordered newest-first. -/
theorem C3_counterexample :
    rowsNewestFirst ((export_csv [sampleFood, sampleFood2]).tail) = false := by
  rfl

theorem isDigitC_digitChar (n : ℕ) (h : n < 10) : isDigitC (digitChar n) = true := by
  interval_cases n <;> decide

theorem natDigitsF_spec (fuel : ℕ) :
    ∀ n : ℕ, n < fuel →
      allDigits (natDigitsF fuel n) = true ∧
      ∀ k : ℕ, 1 ≤ k → n < 10 ^ k → (natDigitsF fuel n).length ≤ k := by
  induction fuel with
  | zero => intro n h; exact absurd h (Nat.not_lt_zero n)
  | succ f ih =>
    intro n h
    by_cases h10 : n < 10
    · refine ⟨?_, ?_⟩
      · simp only [natDigitsF, if_pos h10, allDigits, List.all_cons, List.all_nil,
          Bool.and_true]
        exact isDigitC_digitChar n h10
      · intro k hk _
        simp only [natDigitsF, if_pos h10, List.length_cons, List.length_nil]
        omega
    · have hdiv : n / 10 < f := by omega
      obtain ⟨ihd, ihl⟩ := ih (n / 10) hdiv
      refine ⟨?_, ?_⟩
      · simp only [natDigitsF, if_neg h10, allDigits, List.all_append, List.all_cons,
          List.all_nil, Bool.and_true]
        rw [allDigits] at ihd
        rw [ihd, isDigitC_digitChar (n % 10) (Nat.mod_lt n (by omega))]
        rfl
      · intro k hk hnk
        simp only [natDigitsF, if_neg h10, List.length_append, List.length_cons,
          List.length_nil]
        have hk2 : 2 ≤ k := by
          by_contra hcon
          have hk1 : k = 1 := by omega
          subst hk1
          simp at hnk
          omega
        have hd10 : n / 10 < 10 ^ (k - 1) := by
          rw [Nat.div_lt_iff_lt_mul (by omega)]
          calc n < 10 ^ k := hnk
          _ = 10 ^ (k - 1) * 10 := by
            rw [← pow_succ]
            congr 1
            omega
        have := ihl (k - 1) (by omega) hd10
        omega

theorem allDigits_natDigits (n : ℕ) : allDigits (natDigits n) = true :=
  ((natDigitsF_spec (n + 1) n (Nat.lt_succ_self n)).1)

theorem length_natDigits_le (n k : ℕ) (hk : 1 ≤ k) (h : n < 10 ^ k) :
    (natDigits n).length ≤ k :=
  (natDigitsF_spec (n + 1) n (Nat.lt_succ_self n)).2 k hk h

theorem allDigits_padNat (w n : ℕ) : allDigits (padNat w n) = true := by
  simp only [padNat, allDigits, List.all_append]
  have h0 : (List.replicate (w - (natDigits n).length) '0').all isDigitC = true := by
    rw [List.all_eq_true]
    intro c hc
    rw [List.eq_of_mem_replicate hc]
    decide
  have h1 := allDigits_natDigits n
  rw [allDigits] at h1
  rw [h0, h1]
  rfl

theorem length_padNat (w n : ℕ) (hw : 1 ≤ w) (h : n < 10 ^ w) :
    (padNat w n).length = w := by
  simp only [padNat, List.length_append, List.length_replicate]
  have := length_natDigits_le n w hw h
  omega

/-- C3 amended: the export has one data row per stored record, in the order
the store supplies them (insertion order — `Expense.query.all()` applies no
sorting, so newest-first is not guaranteed), and every date cell is a
zero-padded `YYYY-MM-DD` string. -/
theorem C3_export_rows_in_store_order (es : List Expense)
    (hv : ∀ e ∈ es, 1 ≤ e.date.year ∧ e.date.year ≤ 9999 ∧
      1 ≤ e.date.month ∧ e.date.month ≤ 12 ∧ 1 ≤ e.date.day ∧ e.date.day ≤ 31) :
    (export_csv es).length = es.length + 1 ∧
    (∀ i : ℕ, (export_csv es)[i + 1]? = (es[i]?).map csvRow) ∧
    ∀ e ∈ es, rowDate (csvRow e) = formatDateYMD e.date ∧
      ∃ ys ms ds : List Char,
        (formatDateYMD e.date).data = ys ++ '-' :: (ms ++ '-' :: ds) ∧
        ys.length = 4 ∧ ms.length = 2 ∧ ds.length = 2 ∧
        allDigits ys = true ∧ allDigits ms = true ∧ allDigits ds = true := by
  refine ⟨by simp [export_csv], ?_, ?_⟩
  · intro i
    simp [export_csv]
  · intro e he
    obtain ⟨hy1, hy2, hm1, hm2, hd1, hd2⟩ := hv e he
    refine ⟨rfl, padNat 4 e.date.year, padNat 2 e.date.month, padNat 2 e.date.day,
      rfl, ?_, ?_, ?_, allDigits_padNat _ _, allDigits_padNat _ _, allDigits_padNat _ _⟩
    · exact length_padNat 4 _ (by omega) (by omega)
    · exact length_padNat 2 _ (by omega) (by omega)
    · exact length_padNat 2 _ (by omega) (by omega)

/-- C3 amended witness: the two-record export has three rows, row 1 is the
first stored record's row, and its date cell decomposes as `YYYY-MM-DD`. -/
theorem C3_witness :
    (export_csv [sampleFood, sampleFood2]).length = [sampleFood, sampleFood2].length + 1 ∧
    (∀ i : ℕ, (export_csv [sampleFood, sampleFood2])[i + 1]? =
      ([sampleFood, sampleFood2][i]?).map csvRow) ∧
    ∀ e ∈ [sampleFood, sampleFood2], rowDate (csvRow e) = formatDateYMD e.date ∧
      ∃ ys ms ds : List Char,
        (formatDateYMD e.date).data = ys ++ '-' :: (ms ++ '-' :: ds) ∧
        ys.length = 4 ∧ ms.length = 2 ∧ ds.length = 2 ∧
        allDigits ys = true ∧ allDigits ms = true ∧ allDigits ds = true :=
  C3_export_rows_in_store_order [sampleFood, sampleFood2] (by decide)

/-! ### Python string comparison: order properties -/

theorem charLt_iff (a b : Char) : a < b ↔ a.toNat < b.toNat :=
  Iff.rfl

theorem char_eq_of_toNat_eq {a b : Char} (h : a.toNat = b.toNat) : a = b :=
  Char.ext (UInt32.ext h)

theorem listCmp_swap (as : List Char) :
    ∀ bs : List Char, listCmp bs as = (listCmp as bs).swap := by
  induction as with
  | nil =>
    intro bs
    cases bs with
    | nil => rfl
    | cons b bs => rfl
  | cons a as ih =>
    intro bs
    cases bs with
    | nil => rfl
    | cons b bs =>
      by_cases hab : a < b
      · have hba : ¬ b < a := by
          rw [charLt_iff] at *
          omega
        simp [listCmp, hab, hba, Ordering.swap]
      · by_cases hba : b < a
        · simp [listCmp, hab, hba, Ordering.swap]
        · simp [listCmp, hab, hba, ih bs]

theorem listCmp_eq_eq (as : List Char) :
    ∀ bs : List Char, listCmp as bs = .eq → as = bs := by
  induction as with
  | nil =>
    intro bs h
    cases bs with
    | nil => rfl
    | cons b bs => simp [listCmp] at h
  | cons a as ih =>
    intro bs h
    cases bs with
    | nil => simp [listCmp] at h
    | cons b bs =>
      by_cases hab : a < b
      · simp [listCmp, hab] at h
      · by_cases hba : b < a
        · simp [listCmp, hab, hba] at h
        · have heq : a = b := by
            apply char_eq_of_toNat_eq
            rw [charLt_iff] at hab hba
            omega
          simp only [listCmp, if_neg hab, if_neg hba] at h
          rw [heq, ih bs h]

theorem listCmp_le_trans (as : List Char) :
    ∀ bs cs : List Char, listCmp as bs ≠ .gt → listCmp bs cs ≠ .gt →
      listCmp as cs ≠ .gt := by
  induction as with
  | nil =>
    intro bs cs _ _
    cases cs with
    | nil => simp [listCmp]
    | cons c cs => simp [listCmp]
  | cons a as ih =>
    intro bs cs h1 h2
    cases bs with
    | nil => simp [listCmp] at h1
    | cons b bs =>
      cases cs with
      | nil => simp [listCmp] at h2
      | cons c cs =>
        by_cases hab : a < b
        · by_cases hbc : b < c
          · have hac : a < c := by
              rw [charLt_iff] at *
              omega
            simp [listCmp, hac]
          · by_cases hcb : c < b
            · simp [listCmp, hbc, hcb] at h2
            · have hac : a < c := by
                rw [charLt_iff] at *
                omega
              simp [listCmp, hac]
        · by_cases hba : b < a
          · simp [listCmp, hab, hba] at h1
          · by_cases hbc : b < c
            · have hac : a < c := by
                rw [charLt_iff] at *
                omega
              simp [listCmp, hac]
            · by_cases hcb : c < b
              · simp [listCmp, hbc, hcb] at h2
              · have hac : ¬ a < c := by
                  rw [charLt_iff] at *
                  omega
                have hca : ¬ c < a := by
                  rw [charLt_iff] at *
                  omega
                simp only [listCmp, if_neg hab, if_neg hba] at h1
                simp only [listCmp, if_neg hbc, if_neg hcb] at h2
                simp only [listCmp, if_neg hac, if_neg hca]
                exact ih bs cs h1 h2

theorem strLe_eq_true_iff (s t : String) :
    strLe s t = true ↔ listCmp s.data t.data ≠ .gt := by
  rw [strLe]
  cases hc : listCmp s.data t.data <;> simp [hc]

theorem strLe_total_of_not (s t : String) (h : strLe s t = false) :
    strLe t s = true := by
  have hgt : listCmp s.data t.data = .gt := by
    rw [strLe] at h
    cases hc : listCmp s.data t.data with
    | lt => rw [hc] at h; exact absurd h (by simp)
    | eq => rw [hc] at h; exact absurd h (by simp)
    | gt => rfl
  rw [strLe_eq_true_iff, listCmp_swap, hgt]
  simp [Ordering.swap]

theorem strLe_trans {s t u : String} (h1 : strLe s t = true)
    (h2 : strLe t u = true) : strLe s u = true := by
  rw [strLe_eq_true_iff] at *
  exact listCmp_le_trans _ _ _ h1 h2

theorem strLe_antisymm {s t : String} (h1 : strLe s t = true)
    (h2 : strLe t s = true) : s = t := by
  rw [strLe_eq_true_iff] at h1 h2
  rw [listCmp_swap] at h2
  cases hc : listCmp s.data t.data with
  | lt => rw [hc] at h2; simp [Ordering.swap] at h2
  | gt => exact absurd hc h1
  | eq =>
    have hd := listCmp_eq_eq _ _ hc
    cases s; cases t
    exact congrArg String.mk hd

/-! ### The sort `sorted(...)` is a permutation in ascending order -/

theorem insertKey_perm (k : String) (l : List String) :
    (insertKey k l).Perm (k :: l) := by
  induction l with
  | nil => exact List.Perm.refl _
  | cons x xs ih =>
    by_cases h : strLe k x = true
    · rw [insertKey, if_pos h]
    · rw [insertKey, if_neg h]
      exact (ih.cons x).trans (List.Perm.swap k x xs)

theorem sortKeys_perm (l : List String) : (sortKeys l).Perm l := by
  induction l with
  | nil => exact List.Perm.refl _
  | cons x xs ih => exact (insertKey_perm x (sortKeys xs)).trans (ih.cons x)

theorem insertKey_pairwise (k : String) (l : List String)
    (h : l.Pairwise (fun a b => strLe a b = true)) :
    (insertKey k l).Pairwise (fun a b => strLe a b = true) := by
  induction l with
  | nil => simp [insertKey]
  | cons x xs ih =>
    rw [List.pairwise_cons] at h
    by_cases hkx : strLe k x = true
    · rw [insertKey, if_pos hkx]
      rw [List.pairwise_cons]
      refine ⟨?_, List.pairwise_cons.mpr h⟩
      intro y hy
      rw [List.mem_cons] at hy
      rcases hy with hy | hy
      · subst hy; exact hkx
      · exact strLe_trans hkx (h.1 y hy)
    · rw [insertKey, if_neg hkx]
      rw [List.pairwise_cons]
      refine ⟨?_, ih h.2⟩
      intro y hy
      have hy2 := (insertKey_perm k xs).mem_iff.mp hy
      rw [List.mem_cons] at hy2
      rcases hy2 with hy2 | hy2
      · rw [hy2]
        exact strLe_total_of_not k x (by simpa using hkx)
      · exact h.1 y hy2

theorem sortKeys_pairwise (l : List String) :
    (sortKeys l).Pairwise (fun a b => strLe a b = true) := by
  induction l with
  | nil => simp [sortKeys]
  | cons x xs ih => exact insertKey_pairwise x (sortKeys xs) ih

/-! ### Digit strings compare
lexicographically exactly as their numeric values -/

theorem digitsVal_lt_pow (cs : List Char) (h : allDigits cs = true) :
    digitsVal cs < 10 ^ cs.length := by
  induction cs with
  | nil => simp [digitsVal]
  | cons c cs ih =>
    rw [allDigits, List.all_cons, Bool.and_eq_true] at h
    have hc : c.toNat - 48 ≤ 9 := by
      have hdc := h.1
      rw [isDigitC, Bool.and_eq_true, decide_eq_true_eq, decide_eq_true_eq] at hdc
      omega
    have hr : digitsVal cs < 10 ^ cs.length := ih h.2
    rw [digitsVal, List.length_cons]
    have hmul : (c.toNat - 48) * 10 ^ cs.length ≤ 9 * 10 ^ cs.length :=
      Nat.mul_le_mul_right _ hc
    have hten : 10 ^ (cs.length + 1) = 9 * 10 ^ cs.length + 10 ^ cs.length := by ring
    omega

theorem listCmp_digits (xs : List Char) :
    ∀ ys : List Char, xs.length = ys.length →
      allDigits xs = true → allDigits ys = true →
      listCmp xs ys =
        (if digitsVal xs < digitsVal ys then Ordering.lt
         else if digitsVal ys < digitsVal xs then Ordering.gt else Ordering.eq) := by
  induction xs with
  | nil =>
    intro ys hl _ _
    cases ys with
    | nil => simp [listCmp, digitsVal]
    | cons y ys => simp at hl
  | cons x xs ih =>
    intro ys hl hx hy
    cases ys with
    | nil => simp at hl
    | cons y ys =>
      rw [List.length_cons, List.length_cons] at hl
      have hlen : xs.length = ys.length := by omega
      rw [allDigits, List.all_cons, Bool.and_eq_true] at hx hy
      have hdx : 48 ≤ x.toNat ∧ x.toNat ≤ 57 := by
        have := hx.1
        rw [isDigitC, Bool.and_eq_true, decide_eq_true_eq, decide_eq_true_eq] at this
        exact this
      have hdy : 48 ≤ y.toNat ∧ y.toNat ≤ 57 := by
        have := hy.1
        rw [isDigitC, Bool.and_eq_true, decide_eq_true_eq, decide_eq_true_eq] at this
        exact this
      have hxbound := digitsVal_lt_pow xs hx.2
      have hybound := digitsVal_lt_pow ys hy.2
      rw [← hlen] at hybound
      have hvx : digitsVal (x :: xs) = (x.toNat - 48) * 10 ^ xs.length + digitsVal xs :=
        rfl
      have hvy : digitsVal (y :: ys) = (y.toNat - 48) * 10 ^ xs.length + digitsVal ys := by
        rw [digitsVal, hlen]
      by_cases hxy : x < y
      · have hd : x.toNat - 48 < y.toNat - 48 := by
          rw [charLt_iff] at hxy
          omega
        have hstep : (x.toNat - 48 + 1) * 10 ^ xs.length ≤ (y.toNat - 48) * 10 ^ xs.length :=
          Nat.mul_le_mul_right _ (by omega)
        have hexp : (x.toNat - 48 + 1) * 10 ^ xs.length =
            (x.toNat - 48) * 10 ^ xs.length + 10 ^ xs.length := by ring
        have hvlt : digitsVal (x :: xs) < digitsVal (y :: ys) := by
          rw [hvx, hvy]
          omega
        rw [if_pos hvlt]
        simp [listCmp, hxy]
      · by_cases hyx : y < x
        · have hd : y.toNat - 48 < x.toNat - 48 := by
            rw [charLt_iff] at hyx
            omega
          have hstep : (y.toNat - 48 + 1) * 10 ^ xs.length ≤ (x.toNat - 48) * 10 ^ xs.length :=
            Nat.mul_le_mul_right _ (by omega)
          have hexp : (y.toNat - 48 + 1) * 10 ^ xs.length =
              (y.toNat - 48) * 10 ^ xs.length + 10 ^ xs.length := by ring
          have hvgt : digitsVal (y :: ys) < digitsVal (x :: xs) := by
            rw [hvx, hvy]
            omega
          rw [if_neg (by omega), if_pos hvgt]
          simp [listCmp, hxy, hyx]
        · have hdeq : x.toNat - 48 = y.toNat - 48 := by
            rw [charLt_iff] at hxy hyx
            omega
          have hrec : listCmp (x :: xs) (y :: ys) = listCmp xs ys := by
            simp [listCmp, hxy, hyx]
          have hvy2 : digitsVal (y :: ys) =
              (x.toNat - 48) * 10 ^ xs.length + digitsVal ys := by
            rw [hvy, ← hdeq]
          rw [hrec, ih ys hlen hx.2 hy.2]
          rcases lt_trichotomy (digitsVal xs) (digitsVal ys) with hv | hv | hv
          · rw [if_pos hv, if_pos (by rw [hvx, hvy2]; omega)]
          · rw [if_neg (by omega), if_neg (by omega),
              if_neg (by rw [hvx, hvy2]; omega), if_neg (by rw [hvx, hvy2]; omega)]
          · rw [if_neg (by omega), if_pos hv,
              if_neg (by rw [hvx, hvy2]; omega), if_pos (by rw [hvx, hvy2]; omega)]

theorem digit_lists_eq_of_val_eq {xs ys : List Char} (hl : xs.length = ys.length)
    (hx : allDigits xs = true) (hy : allDigits ys = true)
    (hv : digitsVal xs = digitsVal ys) : xs = ys := by
  apply listCmp_eq_eq
  rw [listCmp_digits xs ys hl hx hy, hv]
  rw [if_neg (by omega), if_neg (by omega)]

/-! ### Month keys: `YYYY-MM` strings -/

/-- `s` is a valid zero-padded month key `YYYY-MM`: four digits, a dash,
and two digits spelling a month between 01 and 12 (the shape every key
produced by `strftime('%Y-%m')` has). -/
def isMonthKey (s : String) : Bool :=
  match s.data with
  | [y1, y2, y3, y4, c, m1, m2] =>
    allDigits [y1, y2, y3, y4] && (c == '-') && allDigits [m1, m2] &&
      1 ≤ digitsVal [m1, m2] && digitsVal [m1, m2] ≤ 12
  | _ => false

/-- The year spelled by a month key's first four characters. -/
def yearOf (s : String) : ℕ :=
  digitsVal (s.data.take 4)

/-- The month spelled by a month key's last two characters. -/
def monthOf (s : String) : ℕ :=
  digitsVal (s.data.drop 5)

example : isMonthKey "2024-03" = true := by rfl
example : isMonthKey "2024-13" = false := by rfl
example : yearOf "2024-03" = 2024 := by rfl
example : monthOf "2024-03" = 3 := by rfl

theorem monthKey_decomp (s : String) (hk : isMonthKey s = true) :
    ∃ ys ms : List Char, s.data = ys ++ '-' :: ms ∧
      ys.length = 4 ∧ ms.length = 2 ∧
      allDigits ys = true ∧ allDigits ms = true ∧
      yearOf s = digitsVal ys ∧ monthOf s = digitsVal ms ∧
      1 ≤ digitsVal ms ∧ digitsVal ms ≤ 12 := by
  rw [isMonthKey] at hk
  split at hk
  · rename_i y1 y2 y3 y4 c m1 m2 heq
    simp only [Bool.and_eq_true, beq_iff_eq, decide_eq_true_eq] at hk
    obtain ⟨⟨⟨⟨hys, hc⟩, hms⟩, hm1⟩, hm2⟩ := hk
    subst hc
    refine ⟨[y1, y2, y3, y4], [m1, m2], heq, rfl, rfl, hys, hms, ?_, ?_, hm1, hm2⟩
    · rw [yearOf, heq]
      rfl
    · rw [monthOf, heq]
      rfl
  · exact absurd hk (by simp)

theorem listCmp_append (xs : List Char) :
    ∀ xs2 ys ys2 : List Char, xs.length = xs2.length →
      listCmp (xs ++ ys) (xs2 ++ ys2) = (listCmp xs xs2).then (listCmp ys ys2) := by
  induction xs with
  | nil =>
    intro xs2 ys ys2 hl
    cases xs2 with
    | nil => simp [listCmp, Ordering.then]
    | cons a l => simp at hl
  | cons x xs ih =>
    intro xs2 ys ys2 hl
    cases xs2 with
    | nil => simp at hl
    | cons x2 l2 =>
      rw [List.length_cons, List.length_cons] at hl
      by_cases hx : x < x2
      · simp [listCmp, hx, Ordering.then]
      · by_cases hx2 : x2 < x
        · simp [listCmp, hx, hx2, Ordering.then]
        · simp only [List.cons_append, listCmp, if_neg hx, if_neg hx2]
          exact ih l2 ys ys2 (by omega)

theorem strLe_monthKey_iff (s t : String)
    (hs : isMonthKey s = true) (ht : isMonthKey t = true) :
    strLe s t = true ↔
      (yearOf s < yearOf t ∨ (yearOf s = yearOf t ∧ monthOf s ≤ monthOf t)) := by
  obtain ⟨ys, ms, hsd, hysl, hmsl, hysd, hmsd, hsy, hsm, _, _⟩ := monthKey_decomp s hs
  obtain ⟨yt, mt, htd, hytl, hmtl, hytd, hmtd, hty, htm, _, _⟩ := monthKey_decomp t ht
  rw [strLe_eq_true_iff, hsd, htd]
  rw [listCmp_append ys yt ('-' :: ms) ('-' :: mt) (by omega)]
  have hin : listCmp ('-' :: ms) ('-' :: mt) = listCmp ms mt := by
    simp [listCmp]
  rw [hin]
  rw [listCmp_digits ys yt (by omega) hysd hytd,
    listCmp_digits ms mt (by omega) hmsd hmtd]
  rw [← hsy, ← hsm, ← hty, ← htm]
  rcases lt_trichotomy (yearOf s) (yearOf t) with hY | hY | hY
  · rw [if_pos hY]
    simp [Ordering.then]
    omega
  · rw [if_neg (by omega), if_neg (by omega)]
    rcases lt_trichotomy (monthOf s) (monthOf t) with hM | hM | hM
    · rw [if_pos hM]
      simp [Ordering.then]
      omega
    · rw [if_neg (by omega), if_neg (by omega)]
      simp [Ordering.then]
      omega
    · rw [if_neg (by omega), if_pos hM]
      simp [Ordering.then]
      omega
  · rw [if_neg (by omega), if_pos hY]
    simp [Ordering.then]
    omega

theorem monthKey_eq_of_yearOf_monthOf_eq {s t : String}
    (hs : isMonthKey s = true) (ht : isMonthKey t = true)
    (hY : yearOf s = yearOf t) (hM : monthOf s = monthOf t) : s = t := by
  obtain ⟨ys, ms, hsd, hysl, hmsl, hysd, hmsd, hsy, hsm, _, _⟩ := monthKey_decomp s hs
  obtain ⟨yt, mt, htd, hytl, hmtl, hytd, hmtd, hty, htm, _, _⟩ := monthKey_decomp t ht
  have h1 : ys = yt :=
    digit_lists_eq_of_val_eq (by omega) hysd hytd (by rw [← hsy, ← hty, hY])
  have h2 : ms = mt :=
    digit_lists_eq_of_val_eq (by omega) hmsd hmtd (by rw [← hsm, ← htm, hM])
  have : s.data = t.data := by rw [hsd, htd, h1, h2]
  cases s; cases t
  exact congrArg String.mk this

/-- C5: sorting the keys of a monthly aggregate whose keys are valid
zero-padded `YYYY-MM` strings returns exactly those keys, in ascending
lexicographic order that is simultaneously strictly increasing
chronological order (first by year, then by month). -/
theorem C5_sortedMonths_spec (m : List (String × ℚ))
    (hv : ∀ k ∈ m.map Prod.fst, isMonthKey k = true)
    (hnd : (m.map Prod.fst).Nodup) :
    (sortedMonths m).Perm (m.map Prod.fst) ∧
    (sortedMonths m).Pairwise (fun a b => strLe a b = true ∧
      (yearOf a < yearOf b ∨ (yearOf a = yearOf b ∧ monthOf a < monthOf b))) := by
  have hperm : (sortedMonths m).Perm (m.map Prod.fst) := sortKeys_perm _
  refine ⟨hperm, ?_⟩
  have hpw := sortKeys_pairwise (m.map Prod.fst)
  have hnd2 : (sortedMonths m).Nodup := hperm.nodup_iff.mpr hnd
  have hcomb := hpw.and hnd2
  refine hcomb.imp_of_mem ?_
  intro a b ha hb hab
  obtain ⟨hle, hne⟩ := hab
  have hka : isMonthKey a = true := hv a (hperm.subset ha)
  have hkb : isMonthKey b = true := hv b (hperm.subset hb)
  refine ⟨hle, ?_⟩
  rcases (strLe_monthKey_iff a b hka hkb).mp hle with hY | ⟨hY, hM⟩
  · exact Or.inl hY
  · refine Or.inr ⟨hY, ?_⟩
    rcases lt_or_eq_of_le hM with hM2 | hM2
    · exact hM2
    · exact absurd (monthKey_eq_of_yearOf_monthOf_eq hka hkb hY hM2) hne

/-- C5 witness: the two-month aggregate of the spec's worked example sorts
to January before February 2024, in chronological order. -/
theorem C5_witness :
    (sortedMonths [("2024-02", (50 : ℚ)), ("2024-01", 130)]).Perm
      ([("2024-02", (50 : ℚ)), ("2024-01", 130)].map Prod.fst) ∧
    (sortedMonths [("2024-02", (50 : ℚ)), ("2024-01", 130)]).Pairwise
      (fun a b => strLe a b = true ∧
        (yearOf a < yearOf b ∨ (yearOf a = yearOf b ∧ monthOf a < monthOf b))) :=
  C5_sortedMonths_spec _ (by decide) (by decide)
